import Mathlib

/-!
Shallow embedding of the mtg-card-search price pipeline.

Each definition below mirrors one function of the JavaScript source:
  * slug derivation (`toKebabCase`, both the both-faces variant of
    utils.js:221 and the first-face variant of utils.js:480),
  * frame/variant detection and the special-printing filter
    (utils.js `detectFrameEffect`, `isPromoCard`; card-utils
    `SPECIAL_FRAME_EFFECTS`, `hasSpecialFrameEffect`, `findCheapestPrinting`),
  * the server-side price extraction (server.js `extractPrice`,
    `findPriceInHTML`, `scrapeStorePrice`, `asyncRouteHandler`),
  * the client-side fetch with retry/backoff (utils.js `fetchStorePrice`),
  * the per-card store aggregation (deck-evaluator.js
    `findCheapestPrintingForDeck`).

Strings are modelled as `List Char` where character-level processing
matters; JavaScript numbers as `ℚ`; absent/`null` values as `Option`.
-/

namespace MtgSearch

/-! ## String and slug utilities (utils.js) -/

/-- The apostrophe character, written via its code point. -/
def apos : Char := Char.ofNat 39

/-- Membership in the character class `[a-z0-9]` of the slug regex. -/
def isLowerAlnum (c : Char) : Bool :=
  (97 ≤ c.toNat && c.toNat ≤ 122) || (48 ≤ c.toNat && c.toNat ≤ 57)

/-- ASCII lowercasing, as `String.prototype.toLowerCase` acts on ASCII. -/
def jsLower (c : Char) : Char :=
  if 65 ≤ c.toNat && c.toNat ≤ 90 then Char.ofNat (c.toNat + 32) else c

/-- The hyphen test used when trimming slugs. -/
def isDash (c : Char) : Bool := c == '-'

/-- ASCII whitespace, as recognised by `String.prototype.trim`. -/
def isWs (c : Char) : Bool :=
  c == ' ' || c == Char.ofNat 9 || c == Char.ofNat 10 ||
    c == Char.ofNat 13 || c == Char.ofNat 11 || c == Char.ofNat 12

/-- Lowercase, drop apostrophes, and send every character outside
`[a-z0-9]` to a hyphen.  This is `toLowerCase().replace(/'/g, "")`
followed by the per-character half of `replace(/[^a-z0-9]+/g, "-")`. -/
def dashMap (l : List Char) : List Char :=
  ((l.map jsLower).filter (fun c => c != apos)).map
    (fun c => if isLowerAlnum c then c else '-')

/-- Collapse each run of consecutive hyphens to a single hyphen;
together with `dashMap` this realises `replace(/[^a-z0-9]+/g, "-")`. -/
def squashDashes : List Char → List Char
  | [] => []
  | [c] => [c]
  | c :: d :: rest =>
    if c == '-' && d == '-' then squashDashes (d :: rest)
    else c :: squashDashes (d :: rest)

/-- Remove the maximal trailing run of characters satisfying `p`. -/
def dropTrailing (p : Char → Bool) : List Char → List Char
  | [] => []
  | c :: rest =>
    match dropTrailing p rest with
    | [] => if p c then [] else [c]
    | r => c :: r

/-- Remove leading and trailing runs of characters satisfying `p`;
instantiated at hyphens this is `replace(/^-+|-+$/g, "")`, and at
whitespace it is `String.prototype.trim`. -/
def trimBoth (p : Char → Bool) (l : List Char) : List Char :=
  dropTrailing p (l.dropWhile p)

/-- Slugify a single face: the common pipeline
`toLowerCase → strip apostrophes → non-alnum runs to "-" → trim "-"`. -/
def kebabOne (l : List Char) : List Char :=
  trimBoth isDash (squashDashes (dashMap l))

/-- Test for the double-slash separator, `str.includes("//")`. -/
def hasDoubleSlash : List Char → Bool
  | [] => false
  | [_] => false
  | c :: d :: rest => (c == '/' && d == '/') || hasDoubleSlash (d :: rest)

/-- Split on the double-slash separator, `str.split("//")`
(leftmost, non-overlapping). -/
def splitOnSlashes : List Char → List (List Char)
  | [] => [[]]
  | [c] => [[c]]
  | c :: d :: rest =>
    if c == '/' && d == '/' then [] :: splitOnSlashes rest
    else
      match splitOnSlashes (d :: rest) with
      | [] => [[c]]
      | p :: ps => (c :: p) :: ps

/-- Join face slugs with single hyphens, `Array.prototype.join("-")`. -/
def joinDash : List (List Char) → List Char
  | [] => []
  | [p] => p
  | p :: q :: ps => p ++ '-' :: joinDash (q :: ps)

/-- `String.prototype.trim`. -/
def trimWs (l : List Char) : List Char := trimBoth isWs l

/-- `str.split("//")[0]`. -/
def firstFace (l : List Char) : List Char :=
  match splitOnSlashes l with
  | [] => []
  | p :: _ => p

/-- The both-faces slug variant, utils.js:221 `toKebabCase`:
when the name contains `//`, each face is trimmed and slugified and the
results are joined with a hyphen; otherwise the whole name is slugified. -/
def toKebabCase (l : List Char) : List Char :=
  if hasDoubleSlash l then joinDash (((splitOnSlashes l).map trimWs).map kebabOne)
  else kebabOne l

/-- The first-face slug variant, utils.js:480 `toKebabCase`:
only the part before `//` is trimmed and slugified. -/
def toKebabCaseFirst (l : List Char) : List Char :=
  kebabOne (trimWs (firstFace l))

/-- No two consecutive hyphens occur in the list. -/
def noDD : List Char → Bool
  | [] => true
  | [_] => true
  | c :: d :: rest => !(c == '-' && d == '-') && noDD (d :: rest)

/-- The first character, when present, is not a hyphen. -/
def headNotDash (l : List Char) : Bool :=
  match l.head? with
  | some c => c != '-'
  | none => true

/-- The last character, when present, is not a hyphen. -/
def lastNotDash (l : List Char) : Bool :=
  match l.getLast? with
  | some c => c != '-'
  | none => true

/-- A well-formed slug: no leading hyphen, no trailing hyphen, and no
two consecutive hyphens. -/
def goodSlug (l : List Char) : Bool := noDD l && headNotDash l && lastNotDash l

/-! ## Card data model (Scryfall card objects as the code reads them) -/

/-- The fields of a Scryfall card object consumed by the pipeline.
`prices_usd` is the parsed `card.prices.usd` catalog price; `none`
covers an absent, empty or unparseable price string. -/
structure Card where
  name : String
  set_name : String
  set : String
  collector_number : String
  frame : String
  border_color : String
  frame_effects : List String
  promo_types : List String
  prices_usd : Option ℚ
deriving DecidableEq

/-- card-utils `SPECIAL_FRAME_EFFECTS`. -/
def SPECIAL_FRAME_EFFECTS : List String :=
  ["borderless", "extendedart", "showcase", "inverted"]

/-- utils.js:112 `isPromoCard`: only the specific `"promopack"` tag counts. -/
def isPromoCard (card : Card) : Bool :=
  card.promo_types.contains "promopack"

/-- card-utils `hasSpecialFrameEffect`: some frame effect is in
`SPECIAL_FRAME_EFFECTS`, or the card is a promo-pack card. -/
def hasSpecialFrameEffect (card : Card) : Bool :=
  (!card.frame_effects.isEmpty &&
    card.frame_effects.any (fun e => SPECIAL_FRAME_EFFECTS.contains e)) ||
  isPromoCard card

/-- The `frame_effects` branch of utils.js:132 `detectFrameEffect`:
only the first listed effect is consulted, and an unrecognised first
effect falls through to the border checks. -/
def frameEffectsToken : List String → Option String
  | [] => none
  | e :: _ =>
    if e = "extendedart" then some "extended-art"
    else if e = "showcase" then some "showcase"
    else if e = "borderless" then some "borderless"
    else none

/-- utils.js:132 `detectFrameEffect`: future frame first, then the
frame-effects list, then border colors, then the retro-frame check. -/
def detectFrameEffect (card : Card) : Option String :=
  if card.frame = "future" then some "future-frame"
  else
    match frameEffectsToken card.frame_effects with
    | some t => some t
    | none =>
      if card.border_color = "borderless" then some "borderless"
      else if card.border_color = "white" then some "white-border"
      else if card.frame == "1997" && card.promo_types.contains "boosterfun" then
        some "retro"
      else none

/-! ## Printing selector (card-utils `findCheapestPrinting`) -/

/-- The printings considered after the optional exclude-special filter. -/
def eligiblePrintings (printings : List Card) (excludeSpecial : Bool) : List Card :=
  if excludeSpecial then printings.filter (fun c => !hasSpecialFrameEffect c)
  else printings

/-- One step of the cheapest-printing loop: a card replaces the current
best only when its catalog price is positive and strictly lower. -/
def pickCheaper (acc : Option (Card × ℚ)) (card : Card) : Option (Card × ℚ) :=
  match card.prices_usd with
  | none => acc
  | some p =>
    match acc with
    | none => if 0 < p then some (card, p) else none
    | some best => if 0 < p ∧ p < best.2 then some (card, p) else some best

/-- card-utils:76 `findCheapestPrinting`: filter specials when asked,
pick the lowest positive USD price, else fall back to the first
eligible printing; `none` signals an empty input or filtered set. -/
def findCheapestPrinting (printings : List Card) (excludeSpecial : Bool) : Option Card :=
  if printings.isEmpty then none
  else
    if (eligiblePrintings printings excludeSpecial).isEmpty then none
    else
      match (eligiblePrintings printings excludeSpecial).foldl pickCheaper none with
      | some best => some best.1
      | none => (eligiblePrintings printings excludeSpecial).head?

/-- The special-printing predicate in the words of the amended claim C1:
some listed frame effect is special, or the promo types contain the
promo-pack tag.  Stated separately so the filter actually used by the
code can be compared against it. -/
def specSpecialPrinting (card : Card) : Bool :=
  card.frame_effects.any (fun e => SPECIAL_FRAME_EFFECTS.contains e) ||
  card.promo_types.contains "promopack"

/-! ## Server-side price extraction (server.js) -/

/-- Membership in `[0-9]`. -/
def isDigitChar (c : Char) : Bool := 48 ≤ c.toNat && c.toNat ≤ 57

/-- Membership in the class `[\d,]` of the price regex. -/
def isDigitOrComma (c : Char) : Bool := isDigitChar c || c == ','

/-- The leftmost match of the price regex `[\d,]+\.?\d*`: a maximal run
of digits and commas, an optional dot, then a maximal run of digits. -/
def priceMatch : List Char → Option (List Char)
  | [] => none
  | c :: rest =>
    if isDigitOrComma c then
      match (c :: rest).dropWhile isDigitOrComma with
      | '.' :: r2 =>
        some ((c :: rest).takeWhile isDigitOrComma ++ '.' :: r2.takeWhile isDigitChar)
      | _ => some ((c :: rest).takeWhile isDigitOrComma)
    else priceMatch rest

/-- `replace(",", "")` removes only the first comma. -/
def removeFirstComma : List Char → List Char
  | [] => []
  | c :: rest => if c == ',' then rest else c :: removeFirstComma rest

/-- Numeric value of a digit run. -/
def digitsToNat (l : List Char) : Nat :=
  l.foldl (fun acc c => acc * 10 + (c.toNat - 48)) 0

/-- `parseFloat` on the matched price text: leading digits, an optional
dot and fractional digits; parsing stops at any other character, and a
text with no leading numeric prefix yields `none` (JavaScript `NaN`). -/
def parseFloatJS (s : List Char) : Option ℚ :=
  match s.takeWhile isDigitChar, s.dropWhile isDigitChar with
  | [], '.' :: r2 =>
    if (r2.takeWhile isDigitChar).isEmpty then none
    else some ((digitsToNat (r2.takeWhile isDigitChar) : ℚ) /
      (10 : ℚ) ^ (r2.takeWhile isDigitChar).length)
  | [], _ => none
  | ip, '.' :: r2 =>
    some ((digitsToNat ip : ℚ) + (digitsToNat (r2.takeWhile isDigitChar) : ℚ) /
      (10 : ℚ) ^ (r2.takeWhile isDigitChar).length)
  | ip, _ => some (digitsToNat ip : ℚ)

/-- server.js:33 `extractPrice`: regex match, first comma removed, then
`parseFloat`; `none` covers both the no-match and the `NaN` outcome
(both are falsy to every caller). -/
def extractPrice (s : String) : Option ℚ :=
  match priceMatch s.data with
  | none => none
  | some m => parseFloatJS (removeFirstComma m)

/-- server.js:59 `findPriceInHTML`: try the selector texts in order and
return the first truthy extracted price. -/
def findPriceInHTML : List String → Option ℚ
  | [] => none
  | t :: rest =>
    match extractPrice t with
    | some p => if p ≠ 0 then some p else findPriceInHTML rest
    | none => findPriceInHTML rest

/-- The value `scrapeStorePrice` resolves with: a priced quote or the
`{error: "Price not found"}` body. -/
inductive ScrapeResult where
  | priced (price : ℚ)
  | noPrice
deriving DecidableEq

/-- server.js:194 `scrapeStorePrice`, applied to the texts of the common
price selectors on the fetched page. -/
def scrapeStorePrice (texts : List String) : ScrapeResult :=
  match findPriceInHTML texts with
  | some p => if p ≠ 0 then .priced p else .noPrice
  | none => .noPrice

/-- The axios failures distinguished by the route handler: timeout
(`ECONNABORTED`/`ETIMEDOUT`), a 404 response, a 429 rate-limit response,
and anything else. -/
inductive AxiosError where
  | timeout
  | notFoundResp
  | rateLimitedResp
  | other
deriving DecidableEq

/-- A run of a store handler: it either resolves with a scrape result or
throws an axios error. -/
inductive HandlerRun where
  | ret (r : ScrapeResult)
  | thrown (e : AxiosError)
deriving DecidableEq

/-- The HTTP reply the route sends: status, error body, price body. -/
structure HttpReply where
  status : Nat
  error : Option String
  price : Option ℚ
deriving DecidableEq

/-- server.js:233 `asyncRouteHandler`: successes and parse failures are
sent as 200 JSON; thrown timeouts become 504, 404 responses become 404,
and every other thrown error (including a 429) becomes a generic 500. -/
def asyncRouteHandler : HandlerRun → HttpReply
  | .ret (.priced p) => ⟨200, none, some p⟩
  | .ret .noPrice => ⟨200, some "Price not found", none⟩
  | .thrown .timeout => ⟨504, some "Request timeout", none⟩
  | .thrown .notFoundResp => ⟨404, some "Card not found", none⟩
  | .thrown .rateLimitedResp => ⟨500, some "Failed to fetch price", none⟩
  | .thrown .other => ⟨500, some "Failed to fetch price", none⟩

/-! ## Client-side fetch with retry (utils.js `fetchStorePrice`) -/

/-- A successful store quote: a price and a product URL. -/
structure Quote where
  price : ℚ
  url : String
deriving DecidableEq

/-- What one `fetch` of the price API can yield to the client:
a 200 body whose `price` field may be absent or falsy, a 404, a 429,
another HTTP error status, or a network error (rejected promise). -/
inductive FetchResponse where
  | ok (price : Option ℚ) (url : String)
  | notFound
  | rateLimited
  | httpError (code : Nat)
  | netError
deriving DecidableEq

/-- utils.js:341 `fetchStorePrice`, driven by the list of responses the
successive attempts receive.  Returns the quote (or `null`) together
with the backoff delays (ms) that were slept: only 429 responses are
retried, with delay `2^retryCount * 1000`, while `retryCount <
maxRetries`. -/
def fetchGo : List FetchResponse → Nat → Nat → Option Quote × List Nat
  | [], _, _ => (none, [])
  | .ok p url :: _, _, _ =>
    match p with
    | some v => if v ≠ 0 then (some ⟨v, url⟩, []) else (none, [])
    | none => (none, [])
  | .notFound :: _, _, _ => (none, [])
  | .rateLimited :: rest, retryCount, maxRetries =>
    if retryCount < maxRetries then
      ((fetchGo rest (retryCount + 1) maxRetries).1,
        (2 ^ retryCount * 1000) :: (fetchGo rest (retryCount + 1) maxRetries).2)
    else (none, [])
  | .httpError _ :: _, _, _ => (none, [])
  | .netError :: _, _, _ => (none, [])

/-- `fetchStorePrice` with its default arguments `retryCount = 0`,
`maxRetries = 3`. -/
def fetchStorePrice (responses : List FetchResponse) : Option Quote × List Nat :=
  fetchGo responses 0 3

/-- How a scrape outcome reaches the client through the 200 JSON reply:
a priced result arrives as a truthy `price` field, a parse failure as a
body with no price. -/
def scrapeToResponse : ScrapeResult → String → FetchResponse
  | .priced p, url => .ok (some p) url
  | .noPrice, url => .ok none url

/-! ## Per-card store aggregation (deck-evaluator.js) -/

/-- utils.js:67 `getStoreKeys`: the fixed store declaration order. -/
def getStoreKeys : List String := ["f2f", "hoc", "401games"]

/-- utils.js:400 `fetchAllStorePrices`: keep, in store order, the quotes
of the stores whose fetch returned one. -/
def collectPrices (results : List (String × Option Quote)) : List (String × Quote) :=
  results.filterMap (fun e =>
    match e.2 with
    | some q => some (e.1, q)
    | none => none)

/-- One step of the cheapest-store loop of deck-evaluator.js:52: a store
replaces the current best only when its price is truthy and strictly
lower. -/
def selectStep (acc : Option (String × Quote)) (e : String × Quote) :
    Option (String × Quote) :=
  match acc with
  | none => if e.2.price ≠ 0 then some e else none
  | some best =>
    if e.2.price ≠ 0 ∧ e.2.price < best.2.price then some e else some best

/-- The cheapest-store selection over the collected quotes, in store
declaration order. -/
def selectCheapestStore (entries : List (String × Quote)) : Option (String × Quote) :=
  entries.foldl selectStep none

/-- An entry of `allStorePrices`: a quote, or an error marker. -/
inductive StoreEntry where
  | quoted (q : Quote)
  | err (msg : String)
deriving DecidableEq

/-- Object lookup `prices[key]`. -/
def lookupStore (k : String) (prices : List (String × Quote)) : Option Quote :=
  match prices.find? (fun e => e.1 == k) with
  | some e => some e.2
  | none => none

/-- deck-evaluator.js:44: every configured store key gets either its
quote or the `{error: "Not available"}` marker. -/
def mkAllStorePrices (prices : List (String × Quote)) : List (String × StoreEntry) :=
  getStoreKeys.map (fun k =>
    (k, match lookupStore k prices with
        | some q => StoreEntry.quoted q
        | none => StoreEntry.err "Not available"))

/-- The outcome of `findCheapestPrintingForDeck` for one deck line. -/
inductive DeckOutcome where
  | cardNotFound
  | noStandardPrintings
  | noPrices (allStorePrices : List (String × StoreEntry))
  | priced (price : ℚ) (store : String) (url : String) (card : Card)
      (allStorePrices : List (String × StoreEntry))
deriving DecidableEq

/-- deck-evaluator.js:25 `findCheapestPrintingForDeck`: resolve the
printing, fetch every store (modelled by `fetch`, the per-store result
for the chosen printing), and select the cheapest store. -/
def findCheapestPrintingForDeck (printings : List Card) (excludeSpecial : Bool)
    (fetch : String → Option Quote) : DeckOutcome :=
  if printings.isEmpty then .cardNotFound
  else
    match findCheapestPrinting printings excludeSpecial with
    | none => .noStandardPrintings
    | some chosen =>
      match selectCheapestStore (collectPrices (getStoreKeys.map (fun k => (k, fetch k)))) with
      | none => .noPrices (mkAllStorePrices (collectPrices (getStoreKeys.map (fun k => (k, fetch k)))))
      | some e =>
        .priced e.2.price e.1 e.2.url chosen
          (mkAllStorePrices (collectPrices (getStoreKeys.map (fun k => (k, fetch k)))))

/-- The numeric price carried by a deck outcome, if any. -/
def outcomePrice : DeckOutcome → Option ℚ
  | .priced p _ _ _ _ => some p
  | _ => none

/-! ## Concrete records used by counterexamples and witnesses -/

/-- A future-frame printing with no frame effects and no promo types. -/
def cardFuture : Card :=
  ⟨"Tarmogoyf", "Future Sight", "fut", "153", "future", "black", [], [], none⟩

/-- A printing whose only variant marker is the `inverted` frame effect. -/
def cardInverted : Card :=
  ⟨"Okaun", "Battlebond", "bbd", "97", "2015", "black", ["inverted"], [], none⟩

/-- A white-bordered printing that also lists the `showcase` frame effect. -/
def cardWhiteShowcase : Card :=
  ⟨"Sheoldred", "Mystery Booster 2", "mb2", "1", "2015", "white", ["showcase"], [], none⟩

/-- A 1997-frame boosterfun printing that also lists the `showcase` effect. -/
def cardRetroShowcase : Card :=
  ⟨"Lightning Bolt", "Dominaria Remastered", "dmr", "401", "1997", "black",
    ["showcase"], ["boosterfun"], none⟩

/-- A plain printing with catalog price 2. -/
def cardCheapTwo : Card :=
  ⟨"Opt", "Set One", "s1", "1", "2015", "black", [], [], some 2⟩

/-- A plain printing with catalog price 5. -/
def cardCheapFive : Card :=
  ⟨"Opt", "Set Two", "s2", "2", "2015", "black", [], [], some 5⟩

/-- A plain printing carrying no catalog price. -/
def cardNoPrice : Card :=
  ⟨"Opt", "Set Three", "s3", "3", "2015", "black", [], [], none⟩

/-- A store-fetch outcome where the first two stores tie on price 3. -/
def fetchTie : String → Option Quote := fun k =>
  if k = "f2f" then some ⟨3, "uf"⟩
  else if k = "hoc" then some ⟨3, "uh"⟩
  else none

/-- A store-fetch outcome where every store call failed. -/
def fetchFail : String → Option Quote := fun _ => none

end MtgSearch

namespace MtgSearch

/-! ## Claim C4: failure taxonomy of a store adapter call -/

/-- Claim C4 counterexample.  The claim says the four failure kinds are
surfaced to the caller as distinct outcomes, never coerced into another
kind or a single undifferentiated value.  In fact the client-side
`fetchStorePrice` yields the identical `null` outcome for a not-found
response and for a fetched page with no extractable price, and the
server route handler sends a rate-limited (429) store error as the same
generic 500 reply as any other error. -/
theorem C4_counterexample :
    fetchStorePrice [.notFound] = (none, []) ∧
    fetchStorePrice [.ok none "u"] = (none, []) ∧
    asyncRouteHandler (.thrown .rateLimitedResp) = asyncRouteHandler (.thrown .other) :=
  ⟨rfl, rfl, rfl⟩

/-- Claim C4, amended.  The server route handler surfaces timeout as a
504 reply, not-found as a 404 reply and parse failure as a 200 reply
with an error body — three pairwise distinct outcomes — but a
rate-limited store response is coerced to the same generic 500 reply as
any other error, and the client-side fetch surfaces every failure kind
as the same absent result. -/
theorem C4_theorem : ∀ (rest : List FetchResponse) (k m : Nat) (url : String),
    asyncRouteHandler (.thrown .timeout) = ⟨504, some "Request timeout", none⟩ ∧
    asyncRouteHandler (.thrown .notFoundResp) = ⟨404, some "Card not found", none⟩ ∧
    asyncRouteHandler (.ret .noPrice) = ⟨200, some "Price not found", none⟩ ∧
    asyncRouteHandler (.thrown .rateLimitedResp) = asyncRouteHandler (.thrown .other) ∧
    (fetchGo (.notFound :: rest) k m).1 = none ∧
    (fetchGo (.ok none url :: rest) k m).1 = none ∧
    (fetchGo (.rateLimited :: .rateLimited :: .rateLimited :: .rateLimited :: rest) 0 3).1 = none :=
  fun _ _ _ _ => ⟨rfl, rfl, rfl, rfl, rfl, rfl, rfl⟩

/-! ## Claim C8: retry policy of `fetchStorePrice` -/

/-- Claim C8.  Only rate-limited (429) responses are retried: a
not-found, a parse failure (200 body without a usable price) and any
other HTTP error return immediately with no backoff sleep, whatever
responses would follow.  Retries back off exponentially with delays
1000 ms, 2000 ms, 4000 ms; after the fixed maximum of three retries the
fetch fails permanently; and three 429s followed by a success yield the
successful price. -/
theorem C8_theorem : ∀ (rest : List FetchResponse) (k m code : Nat) (url : String) (p : ℚ),
    fetchGo (.notFound :: rest) k m = (none, []) ∧
    fetchGo (.ok none url :: rest) k m = (none, []) ∧
    fetchGo (.httpError code :: rest) k m = (none, []) ∧
    (p ≠ 0 → fetchStorePrice [.rateLimited, .rateLimited, .rateLimited, .ok (some p) url] =
      (some ⟨p, url⟩, [1000, 2000, 4000])) ∧
    fetchStorePrice (.rateLimited :: .rateLimited :: .rateLimited :: .rateLimited :: rest) =
      (none, [1000, 2000, 4000]) := by
  intro rest k m code url p
  refine ⟨rfl, rfl, rfl, fun hp => ?_, rfl⟩
  simp [fetchStorePrice, fetchGo, hp]

/-- Claim C8 witness at a concrete price. -/
theorem C8_witness :
    (2 : ℚ) ≠ 0 ∧
    fetchStorePrice [.rateLimited, .rateLimited, .rateLimited, .ok (some 2) "u"] =
      (some ⟨2, "u"⟩, [1000, 2000, 4000]) :=
  ⟨by norm_num, (C8_theorem [] 0 0 0 "u" 2).2.2.2.1 (by norm_num)⟩

/-! ## Claim C2: precedence inside `detectFrameEffect` -/

/-- `frameEffectsToken` consults only the head of the effects list. -/
theorem frameEffectsToken_congr {l l' : List String} (h : l.head? = l'.head?) :
    frameEffectsToken l = frameEffectsToken l' := by
  cases l with
  | nil => cases l' with
    | nil => rfl
    | cons e t => simp at h
  | cons e t => cases l' with
    | nil => simp at h
    | cons e' t' =>
      simp at h
      simp [frameEffectsToken, h]

/-- Claim C2 counterexample.  The claim says the border-color and
retro-frame special cases are checked before the frame-effects list.
In fact a white-bordered card listing `showcase` gets the frame-effect
answer, and so does a 1997-frame boosterfun card listing `showcase` —
the code checks the frame-effects list first for everything except the
future frame. -/
theorem C2_counterexample :
    detectFrameEffect cardWhiteShowcase = some "showcase" ∧
    cardWhiteShowcase.border_color = "white" ∧
    detectFrameEffect cardRetroShowcase = some "showcase" ∧
    cardRetroShowcase.frame = "1997" ∧
    cardRetroShowcase.promo_types.contains "boosterfun" = true ∧
    "showcase" ≠ "white-border" ∧ "showcase" ≠ "retro" := by
  refine ⟨rfl, rfl, rfl, rfl, rfl, ?_, ?_⟩ <;> decide

/-- Claim C2, amended.  Within `detectFrameEffect`, the future-frame
check precedes everything; the frame-effects list is consulted next, so
a recognised first effect wins over border color and the retro-frame
check; and only the first listed effect is ever consulted — the result
depends on `frame_effects` only through its head. -/
theorem C2_theorem : ∀ (c c' : Card),
    (c.frame = "future" → detectFrameEffect c = some "future-frame") ∧
    (c.frame ≠ "future" → ∀ t, frameEffectsToken c.frame_effects = some t →
      detectFrameEffect c = some t) ∧
    (c.frame = c'.frame → c.border_color = c'.border_color →
      c.promo_types = c'.promo_types → c.frame_effects.head? = c'.frame_effects.head? →
      detectFrameEffect c = detectFrameEffect c') := by
  intro c c'
  refine ⟨fun h => by simp [detectFrameEffect, h], fun h t ht => ?_, fun h1 h2 h3 h4 => ?_⟩
  · simp [detectFrameEffect, h, ht]
  · simp only [detectFrameEffect, h1, h2, h3, frameEffectsToken_congr h4]

/-- Claim C2 witness: the future-frame branch at a concrete card. -/
theorem C2_witness : detectFrameEffect cardFuture = some "future-frame" :=
  (C2_theorem cardFuture cardFuture).1 rfl

/-! ## Claim C1: what the exclude-special filter removes -/

/-- With the flag off, the selector considers every printing. -/
theorem eligible_false (l : List Card) : eligiblePrintings l false = l := rfl

/-- Claim C1 counterexample.  The claim says the filter removes exactly
the printings whose Frame/Variant Descriptor (`detectFrameEffect`) is
non-none or whose promo types contain the promo-pack tag.  In fact a
future-frame printing (descriptor `future-frame`, not a promo) survives
the filter and is returned, while a printing whose only marker is the
`inverted` frame effect (descriptor none, not a promo) is removed. -/
theorem C1_counterexample :
    findCheapestPrinting [cardFuture] true = some cardFuture ∧
    detectFrameEffect cardFuture = some "future-frame" ∧
    isPromoCard cardFuture = false ∧
    findCheapestPrinting [cardInverted] true = none ∧
    detectFrameEffect cardInverted = none ∧
    isPromoCard cardInverted = false := by
  refine ⟨?_, rfl, rfl, ?_, rfl, rfl⟩ <;> decide

/-- Claim C1, amended.  With the exclude-special flag set,
`findCheapestPrinting` behaves exactly as the unfiltered selector run on
the printings that are not special, where special means: some listed
frame effect is in `SPECIAL_FRAME_EFFECTS` (borderless, extendedart,
showcase, inverted), or the promo types contain the `promopack` tag.
The promo side of the filter depends on the promo types only through
membership of `promopack`, so other promo tags (e.g. a beginner-box
tag) never cause a printing to be filtered out. -/
theorem C1_theorem : ∀ (printings : List Card) (card : Card) (tags : List String),
    findCheapestPrinting printings true =
      findCheapestPrinting (printings.filter (fun c => !specSpecialPrinting c)) false ∧
    hasSpecialFrameEffect card = specSpecialPrinting card ∧
    hasSpecialFrameEffect { card with promo_types := tags } =
      (hasSpecialFrameEffect { card with promo_types := [] } || tags.contains "promopack") := by
  intro printings card tags
  have hspec : ∀ d : Card, hasSpecialFrameEffect d = specSpecialPrinting d := by
    intro d
    cases hfe : d.frame_effects with
    | nil => simp [hasSpecialFrameEffect, specSpecialPrinting, isPromoCard, hfe]
    | cons e t => simp [hasSpecialFrameEffect, specSpecialPrinting, isPromoCard, hfe]
  refine ⟨?_, hspec card, ?_⟩
  · have hF : eligiblePrintings printings true =
        printings.filter (fun c => !specSpecialPrinting c) := by
      simp only [eligiblePrintings, if_pos]
      exact List.filter_congr (fun c _ => by rw [hspec c])
    have hstep : findCheapestPrinting printings true =
        findCheapestPrinting (eligiblePrintings printings true) false := by
      cases printings with
      | nil => rfl
      | cons p ps =>
        by_cases hq : (eligiblePrintings (p :: ps) true).isEmpty = true <;>
          simp [findCheapestPrinting, eligible_false, hq]
    rw [hstep, hF]
  · cases card with
    | mk nm sn st cn fr bc fe pt pu =>
      simp [hasSpecialFrameEffect, isPromoCard, Bool.or_assoc]

/-! ## Claim C3: soundness of the printing selector -/

/-- A card with no catalog price never changes the fold state. -/
theorem pickCheaper_no_price (acc : Option (Card × ℚ)) (c : Card)
    (hu : c.prices_usd = none) : pickCheaper acc c = acc := by
  simp [pickCheaper, hu]

/-- One fold step from an empty state on a priced card. -/
theorem pickCheaper_start (c : Card) (p : ℚ) (hu : c.prices_usd = some p) :
    pickCheaper none c = if 0 < p then some (c, p) else none := by
  simp [pickCheaper, hu]

/-- One fold step from a non-empty state on a priced card. -/
theorem pickCheaper_step (best : Card × ℚ) (c : Card) (p : ℚ)
    (hu : c.prices_usd = some p) :
    pickCheaper (some best) c =
      if 0 < p ∧ p < best.2 then some (c, p) else some best := by
  simp [pickCheaper, hu]

/-- What the cheapest-printing fold can return: its start value, or a
member of the list carrying its own positive catalog price. -/
theorem pickCheaper_fold_mem : ∀ (l : List Card) (acc : Option (Card × ℚ)) (cp : Card × ℚ),
    l.foldl pickCheaper acc = some cp →
    acc = some cp ∨ (cp.1 ∈ l ∧ cp.1.prices_usd = some cp.2 ∧ 0 < cp.2) := by
  intro l
  induction l with
  | nil => intro acc cp h; exact Or.inl h
  | cons c rest ih =>
    intro acc cp h
    rcases ih (pickCheaper acc c) cp h with h1 | h2
    · cases hu : c.prices_usd with
      | none =>
        rw [pickCheaper_no_price acc c hu] at h1
        exact Or.inl h1
      | some p =>
        cases acc with
        | none =>
          rw [pickCheaper_start c p hu] at h1
          by_cases hp : 0 < p
          · rw [if_pos hp] at h1
            obtain rfl : (c, p) = cp := Option.some.inj h1
            exact Or.inr ⟨List.mem_cons_self c rest, hu, hp⟩
          · rw [if_neg hp] at h1
            exact Option.noConfusion h1
        | some best =>
          rw [pickCheaper_step best c p hu] at h1
          by_cases hp : 0 < p ∧ p < best.2
          · rw [if_pos hp] at h1
            obtain rfl : (c, p) = cp := Option.some.inj h1
            exact Or.inr ⟨List.mem_cons_self c rest, hu, hp.1⟩
          · rw [if_neg hp] at h1
            exact Or.inl h1
    · exact Or.inr ⟨List.mem_cons_of_mem c h2.1, h2.2⟩

/-- The price returned by the cheapest-printing fold is a lower bound of
the start value's price and of every positive catalog price in the
list. -/
theorem pickCheaper_fold_min : ∀ (l : List Card) (acc : Option (Card × ℚ)) (cp : Card × ℚ),
    l.foldl pickCheaper acc = some cp →
    (∀ best, acc = some best → cp.2 ≤ best.2) ∧
    (∀ c' ∈ l, ∀ p', c'.prices_usd = some p' → 0 < p' → cp.2 ≤ p') := by
  intro l
  induction l with
  | nil =>
    intro acc cp h
    refine ⟨fun best hacc => ?_, fun c' hc' => absurd hc' (List.not_mem_nil c')⟩
    rw [hacc] at h
    obtain rfl : best = cp := Option.some.inj h
    exact le_refl _
  | cons c rest ih =>
    intro acc cp h
    have ihm := ih (pickCheaper acc c) cp h
    constructor
    · intro best hacc
      subst hacc
      cases hu : c.prices_usd with
      | none =>
        rw [pickCheaper_no_price _ c hu] at ihm
        exact ihm.1 best rfl
      | some p =>
        rw [pickCheaper_step best c p hu] at ihm
        by_cases hcond : 0 < p ∧ p < best.2
        · rw [if_pos hcond] at ihm
          exact le_trans (ihm.1 (c, p) rfl) (le_of_lt hcond.2)
        · rw [if_neg hcond] at ihm
          exact ihm.1 best rfl
    · intro c' hc' p' hp' hpos
      rcases List.mem_cons.mp hc' with rfl | hmem
      · cases acc with
        | none =>
          rw [pickCheaper_start c' p' hp', if_pos hpos] at ihm
          exact ihm.1 (c', p') rfl
        | some best =>
          rw [pickCheaper_step best c' p' hp'] at ihm
          by_cases hcond : 0 < p' ∧ p' < best.2
          · rw [if_pos hcond] at ihm
            exact ihm.1 (c', p') rfl
          · rw [if_neg hcond] at ihm
            have hbp : best.2 ≤ p' := by
              by_contra hlt
              exact hcond ⟨hpos, lt_of_not_le hlt⟩
            exact le_trans (ihm.1 best rfl) hbp
      · exact ihm.2 c' hmem p' hp' hpos

/-- The cheapest-printing fold yields `none` exactly when it started
from `none` and no card in the list has a positive catalog price. -/
theorem pickCheaper_fold_none : ∀ (l : List Card) (acc : Option (Card × ℚ)),
    l.foldl pickCheaper acc = none ↔
    (acc = none ∧ ∀ c ∈ l, ∀ p, c.prices_usd = some p → ¬ 0 < p) := by
  intro l
  induction l with
  | nil => intro acc; simp
  | cons c rest ih =>
    intro acc
    rw [List.foldl_cons, ih]
    constructor
    · rintro ⟨h1, h2⟩
      have hstep : acc = none ∧ ∀ p, c.prices_usd = some p → ¬ 0 < p := by
        cases hu : c.prices_usd with
        | none =>
          rw [pickCheaper_no_price acc c hu] at h1
          exact ⟨h1, fun p hp => Option.noConfusion hp⟩
        | some p =>
          cases acc with
          | none =>
            rw [pickCheaper_start c p hu] at h1
            by_cases hp : 0 < p
            · rw [if_pos hp] at h1
              exact Option.noConfusion h1
            · refine ⟨rfl, fun q hq => ?_⟩
              obtain rfl : p = q := Option.some.inj hq
              exact hp
          | some best =>
            rw [pickCheaper_step best c p hu] at h1
            by_cases hcond : 0 < p ∧ p < best.2
            · rw [if_pos hcond] at h1
              exact Option.noConfusion h1
            · rw [if_neg hcond] at h1
              exact Option.noConfusion h1
      refine ⟨hstep.1, fun c' hc' p hp => ?_⟩
      rcases List.mem_cons.mp hc' with rfl | hmem
      · exact hstep.2 p hp
      · exact h2 c' hmem p hp
    · rintro ⟨hacc, hall⟩
      subst hacc
      have h1 : pickCheaper none c = none := by
        cases hu : c.prices_usd with
        | none => exact pickCheaper_no_price none c hu
        | some p =>
          rw [pickCheaper_start c p hu]
          exact if_neg (hall c (List.mem_cons_self c rest) p hu)
      rw [h1]
      exact ⟨rfl, fun c' hc' p hp => hall c' (List.mem_cons_of_mem c hc') p hp⟩

/-- Unfolding of the selector when neither emptiness guard fires. -/
theorem findCheapest_eq (printings : List Card) (ex : Bool)
    (h : printings.isEmpty = false) (h2 : (eligiblePrintings printings ex).isEmpty = false) :
    findCheapestPrinting printings ex =
      match (eligiblePrintings printings ex).foldl pickCheaper none with
      | some best => some best.1
      | none => (eligiblePrintings printings ex).head? := by
  simp [findCheapestPrinting, h, h2]

/-- Eligible printings are printings. -/
theorem eligible_subset (printings : List Card) (ex : Bool) :
    ∀ c ∈ eligiblePrintings printings ex, c ∈ printings := by
  cases ex with
  | false => intro c hc; exact hc
  | true => intro c hc; exact List.mem_of_mem_filter hc

/-- The eligible set of no printings is empty. -/
theorem eligible_nil (ex : Bool) : eligiblePrintings [] ex = [] := by
  cases ex <;> rfl

/-- Claim C3.  The printing selector only ever returns a member of the
eligible set (hence of the input set) or `none`; when some eligible
printing carries a positive catalog USD price the result carries the
lowest such price (in particular a positive one); and when no eligible
printing has a positive price the result is the first eligible printing
in catalog order. -/
theorem C3_theorem : ∀ (printings : List Card) (ex : Bool),
    (∀ c, findCheapestPrinting printings ex = some c →
      c ∈ eligiblePrintings printings ex ∧ c ∈ printings) ∧
    ((∃ c ∈ eligiblePrintings printings ex, ∃ p, c.prices_usd = some p ∧ 0 < p) →
      ∃ c p, findCheapestPrinting printings ex = some c ∧ c.prices_usd = some p ∧
        0 < p ∧ ∀ c' ∈ eligiblePrintings printings ex, ∀ p',
          c'.prices_usd = some p' → 0 < p' → p ≤ p') ∧
    (eligiblePrintings printings ex ≠ [] →
      (∀ c ∈ eligiblePrintings printings ex, ∀ p, c.prices_usd = some p → p ≤ 0) →
      findCheapestPrinting printings ex = (eligiblePrintings printings ex).head?) := by
  intro printings ex
  refine ⟨?_, ?_, ?_⟩
  · intro c hc
    by_cases hp : printings.isEmpty = true
    · simp [findCheapestPrinting, hp] at hc
    · by_cases hq : (eligiblePrintings printings ex).isEmpty = true
      · simp [findCheapestPrinting, hp, hq] at hc
      · rw [findCheapest_eq printings ex (by simpa using hp) (by simpa using hq)] at hc
        cases hfold : (eligiblePrintings printings ex).foldl pickCheaper none with
        | some best =>
          rw [hfold] at hc
          obtain rfl : best.1 = c := Option.some.inj hc
          rcases pickCheaper_fold_mem _ none best hfold with hbad | hmem
          · exact Option.noConfusion hbad
          · exact ⟨hmem.1, eligible_subset printings ex _ hmem.1⟩
        | none =>
          rw [hfold] at hc
          have hc' : (eligiblePrintings printings ex).head? = some c := hc
          have hcm : c ∈ eligiblePrintings printings ex := by
            cases hE : eligiblePrintings printings ex with
            | nil => rw [hE] at hc'; exact Option.noConfusion hc'
            | cons e t =>
              rw [hE] at hc'
              obtain rfl : e = c := Option.some.inj hc'
              exact List.mem_cons_self e t
          exact ⟨hcm, eligible_subset printings ex c hcm⟩
  · rintro ⟨c0, hc0E, p0, hc0p, hp0⟩
    have hEne : eligiblePrintings printings ex ≠ [] := fun hE => by
      rw [hE] at hc0E; cases hc0E
    have hpne : printings ≠ [] := fun hP => by
      rw [hP, eligible_nil] at hEne; exact hEne rfl
    cases hfold : (eligiblePrintings printings ex).foldl pickCheaper none with
    | none =>
      rcases (pickCheaper_fold_none _ none).mp hfold with ⟨-, hnone⟩
      exact absurd hp0 (hnone c0 hc0E p0 hc0p)
    | some best =>
      have heq := findCheapest_eq printings ex (by simpa [List.isEmpty_iff] using hpne)
        (by simpa [List.isEmpty_iff] using hEne)
      rw [hfold] at heq
      rcases pickCheaper_fold_mem _ none best hfold with hbad | ⟨hmem, hpr, hpos⟩
      · cases hbad
      · exact ⟨best.1, best.2, heq, hpr, hpos,
          (pickCheaper_fold_min _ none best hfold).2⟩
  · intro hne hall
    have hpne : printings ≠ [] := fun hP => by
      rw [hP, eligible_nil] at hne; exact hne rfl
    have hfold : (eligiblePrintings printings ex).foldl pickCheaper none = none :=
      (pickCheaper_fold_none _ none).mpr
        ⟨rfl, fun c hc p hp => not_lt.mpr (hall c hc p hp)⟩
    have heq := findCheapest_eq printings ex (by simpa [List.isEmpty_iff] using hpne)
      (by simpa [List.isEmpty_iff] using hne)
    rw [hfold] at heq
    exact heq

/-- Claim C3 witness on a concrete pair of priced printings. -/
theorem C3_witness :
    ∃ c p, findCheapestPrinting [cardCheapFive, cardCheapTwo] false = some c ∧
      c.prices_usd = some p ∧ 0 < p ∧
      ∀ c' ∈ eligiblePrintings [cardCheapFive, cardCheapTwo] false, ∀ p',
        c'.prices_usd = some p' → 0 < p' → p ≤ p' :=
  (C3_theorem [cardCheapFive, cardCheapTwo] false).2.1
    ⟨cardCheapTwo, by decide, 2, rfl, by norm_num⟩

/-! ## Claim C6: cheapest-store selection -/

/-- The cheapest-store fold, started from one store, returns the first
minimum: a store whose price is a lower bound of everything seen, and
strictly below every strictly earlier store's price. -/
theorem selectStep_fold_spec : ∀ (l : List (String × Quote)) (a : String × Quote),
    (∀ e ∈ l, 0 < e.2.price) →
    ∃ r, l.foldl selectStep (some a) = some r ∧
      r.2.price ≤ a.2.price ∧
      (∀ e ∈ l, r.2.price ≤ e.2.price) ∧
      (r = a ∨ (r.2.price < a.2.price ∧ ∃ i : Nat, l[i]? = some r ∧
        ∀ (j : Nat) (e' : String × Quote), j < i → l[j]? = some e' →
          r.2.price < e'.2.price)) := by
  intro l
  induction l with
  | nil =>
    intro a _
    exact ⟨a, rfl, le_refl _, fun e he => absurd he (List.not_mem_nil e), Or.inl rfl⟩
  | cons e rest ih =>
    intro a hpos
    have hepos : 0 < e.2.price := hpos e (List.mem_cons_self e rest)
    have hrpos : ∀ x ∈ rest, 0 < x.2.price := fun x hx =>
      hpos x (List.mem_cons_of_mem e hx)
    rw [List.foldl_cons]
    by_cases hlt : e.2.price < a.2.price
    · have hstep : selectStep (some a) e = some e := by
        simp only [selectStep]
        exact if_pos ⟨ne_of_gt hepos, hlt⟩
      rw [hstep]
      rcases ih e hrpos with ⟨r, hr, hre, hrall, hcase⟩
      refine ⟨r, hr, le_of_lt (lt_of_le_of_lt hre hlt), ?_, ?_⟩
      · intro x hx
        rcases List.mem_cons.mp hx with rfl | hx2
        · exact hre
        · exact hrall x hx2
      · rcases hcase with rfl | ⟨hlt2, i, hi, hfirst⟩
        · refine Or.inr ⟨hlt, 0, by simp, ?_⟩
          intro j e' hj _
          exact absurd hj (Nat.not_lt_zero j)
        · refine Or.inr ⟨lt_trans hlt2 hlt, i + 1, by simpa using hi, ?_⟩
          intro j e' hj hje
          cases j with
          | zero =>
            obtain rfl : e = e' := by simpa using hje
            exact hlt2
          | succ j' =>
            exact hfirst j' e' (Nat.lt_of_succ_lt_succ hj) (by simpa using hje)
    · have hstep : selectStep (some a) e = some a := by
        simp only [selectStep]
        exact if_neg (fun hcon => hlt hcon.2)
      rw [hstep]
      rcases ih a hrpos with ⟨r, hr, hra, hrall, hcase⟩
      have hae : a.2.price ≤ e.2.price := le_of_not_lt hlt
      refine ⟨r, hr, hra, ?_, ?_⟩
      · intro x hx
        rcases List.mem_cons.mp hx with rfl | hx2
        · exact le_trans hra hae
        · exact hrall x hx2
      · rcases hcase with rfl | ⟨hlt2, i, hi, hfirst⟩
        · exact Or.inl rfl
        · refine Or.inr ⟨hlt2, i + 1, by simpa using hi, ?_⟩
          intro j e' hj hje
          cases j with
          | zero =>
            obtain rfl : e = e' := by simpa using hje
            exact lt_of_lt_of_le hlt2 hae
          | succ j' =>
            exact hfirst j' e' (Nat.lt_of_succ_lt_succ hj) (by simpa using hje)

/-- Claim C6.  Over the quotes collected in store declaration order,
when every carried price is positive (the system invariant) and at
least one store has a quote, the cheapest-store loop picks an entry
whose price is less than or equal to every other entry's price, and
which is strictly cheaper than every entry declared before it — so on
an exact tie the earlier-declared store wins. -/
theorem C6_theorem : ∀ (fetch : String → Option Quote) (entries : List (String × Quote)),
    entries = collectPrices (getStoreKeys.map (fun k => (k, fetch k))) →
    (∀ e ∈ entries, 0 < e.2.price) → entries ≠ [] →
    ∃ (r : String × Quote) (i : Nat), selectCheapestStore entries = some r ∧
      entries[i]? = some r ∧
      (∀ e ∈ entries, r.2.price ≤ e.2.price) ∧
      ∀ (j : Nat) (e' : String × Quote), j < i → entries[j]? = some e' →
        r.2.price < e'.2.price := by
  intro fetch entries _ hpos hne
  cases entries with
  | nil => exact absurd rfl hne
  | cons e rest =>
    have hepos : 0 < e.2.price := hpos e (List.mem_cons_self e rest)
    have hrpos : ∀ x ∈ rest, 0 < x.2.price := fun x hx =>
      hpos x (List.mem_cons_of_mem e hx)
    have hstart : selectStep none e = some e := by
      simp only [selectStep]
      exact if_pos (ne_of_gt hepos)
    rcases selectStep_fold_spec rest e hrpos with ⟨r, hr, hre, hrall, hcase⟩
    have hsel : selectCheapestStore (e :: rest) = some r := by
      unfold selectCheapestStore
      rw [List.foldl_cons, hstart, hr]
    rcases hcase with rfl | ⟨hlt2, i, hi, hfirst⟩
    · refine ⟨r, 0, hsel, by simp, ?_, ?_⟩
      · intro x hx
        rcases List.mem_cons.mp hx with rfl | hx2
        · exact le_refl _
        · exact hrall x hx2
      · intro j e' hj _
        exact absurd hj (Nat.not_lt_zero j)
    · refine ⟨r, i + 1, hsel, by simpa using hi, ?_, ?_⟩
      · intro x hx
        rcases List.mem_cons.mp hx with rfl | hx2
        · exact le_of_lt hlt2
        · exact hrall x hx2
      · intro j e' hj hje
        cases j with
        | zero =>
          obtain rfl : e = e' := by simpa using hje
          exact hlt2
        | succ j' =>
          exact hfirst j' e' (Nat.lt_of_succ_lt_succ hj) (by simpa using hje)

/-- Claim C6 witness: two stores tie at price 3 and the selector picks
the earlier-declared one. -/
theorem C6_witness :
    (∀ e ∈ collectPrices (getStoreKeys.map (fun k => (k, fetchTie k))), 0 < e.2.price) ∧
    collectPrices (getStoreKeys.map (fun k => (k, fetchTie k))) ≠ [] ∧
    ∃ (r : String × Quote) (i : Nat),
      selectCheapestStore (collectPrices (getStoreKeys.map (fun k => (k, fetchTie k)))) =
        some r ∧
      (collectPrices (getStoreKeys.map (fun k => (k, fetchTie k))))[i]? = some r ∧
      (∀ e ∈ collectPrices (getStoreKeys.map (fun k => (k, fetchTie k))),
        r.2.price ≤ e.2.price) ∧
      ∀ (j : Nat) (e' : String × Quote), j < i →
        (collectPrices (getStoreKeys.map (fun k => (k, fetchTie k))))[j]? = some e' →
        r.2.price < e'.2.price :=
  ⟨by decide, by decide, C6_theorem fetchTie _ rfl (by decide) (by decide)⟩

/-! ## Claim C5: a carried price is always positive -/

/-- `parseFloat` on a regex price match never yields a negative value:
the matched text has no sign, so the value is built from digit runs. -/
theorem parseFloatJS_nonneg (s : List Char) (p : ℚ) (h : parseFloatJS s = some p) :
    0 ≤ p := by
  unfold parseFloatJS at h
  split at h
  · split_ifs at h
    obtain rfl := Option.some.inj h
    positivity
  · exact Option.noConfusion h
  · obtain rfl := Option.some.inj h
    positivity
  · obtain rfl := Option.some.inj h
    positivity

/-- An extracted price is never negative. -/
theorem extractPrice_nonneg (s : String) (p : ℚ) (h : extractPrice s = some p) :
    0 ≤ p := by
  unfold extractPrice at h
  cases hm : priceMatch s.data with
  | none => rw [hm] at h; exact Option.noConfusion h
  | some m =>
    rw [hm] at h
    exact parseFloatJS_nonneg _ p h

/-- The price found by the selector loop is strictly positive: only
truthy extracted values are returned, and extraction is non-negative. -/
theorem findPriceInHTML_pos : ∀ (texts : List String) (p : ℚ),
    findPriceInHTML texts = some p → 0 < p := by
  intro texts
  induction texts with
  | nil => intro p h; exact Option.noConfusion h
  | cons t rest ih =>
    intro p h
    cases he : extractPrice t with
    | none =>
      simp only [findPriceInHTML, he] at h
      exact ih p h
    | some q =>
      simp only [findPriceInHTML, he] at h
      by_cases hq : q ≠ 0
      · rw [if_pos hq] at h
        obtain rfl : q = p := Option.some.inj h
        exact lt_of_le_of_ne (extractPrice_nonneg t q he) (Ne.symm hq)
      · rw [if_neg hq] at h
        exact ih p h

/-- Inversion of the scrape result: a priced result records the truthy
price that `findPriceInHTML` found. -/
theorem scrape_priced_inv (texts : List String) (p : ℚ)
    (h : scrapeStorePrice texts = .priced p) :
    findPriceInHTML texts = some p ∧ p ≠ 0 := by
  cases hf : findPriceInHTML texts with
  | none =>
    simp only [scrapeStorePrice, hf] at h
    exact ScrapeResult.noConfusion h
  | some v =>
    simp only [scrapeStorePrice, hf] at h
    by_cases hv : v ≠ 0
    · rw [if_pos hv] at h
      cases h
      exact ⟨rfl, hv⟩
    · rw [if_neg hv] at h
      exact ScrapeResult.noConfusion h

/-- Claim C5.  A store quote produced by the fetch pipeline (server
page scrape → 200 JSON reply → client fetch) carries a strictly
positive price whenever it carries one at all, and a zero or missing
extracted price is reported as an absent quote, never as a price of
zero. -/
theorem C5_theorem : ∀ (texts : List String) (url : String)
    (rest : List FetchResponse) (k m : Nat),
    (∀ p : ℚ, findPriceInHTML texts = some p → 0 < p) ∧
    (∀ q : Quote,
      (fetchGo (scrapeToResponse (scrapeStorePrice texts) url :: rest) k m).1 = some q →
      0 < q.price) ∧
    (scrapeStorePrice texts = .noPrice →
      (fetchGo (scrapeToResponse (scrapeStorePrice texts) url :: rest) k m).1 = none) := by
  intro texts url rest k m
  refine ⟨findPriceInHTML_pos texts, ?_, ?_⟩
  · intro q hq
    cases hs : scrapeStorePrice texts with
    | noPrice =>
      rw [hs] at hq
      simp only [scrapeToResponse, fetchGo] at hq
      exact Option.noConfusion hq
    | priced p =>
      obtain ⟨hf, hne⟩ := scrape_priced_inv texts p hs
      have hp : 0 < p := findPriceInHTML_pos texts p hf
      rw [hs] at hq
      simp only [scrapeToResponse, fetchGo, if_pos hne] at hq
      obtain rfl : (⟨p, url⟩ : Quote) = q := Option.some.inj hq
      exact hp
  · intro hs
    rw [hs]
    simp [scrapeToResponse, fetchGo]

/-- Claim C5 witness: one selector text carrying the price 3. -/
theorem C5_witness : findPriceInHTML ["$3"] = some 3 ∧ (0 : ℚ) < 3 := by
  have h : findPriceInHTML ["$3"] = some 3 := by decide
  have ht := C5_theorem ["$3"] "u" [] 0 3
  exact ⟨h, ht.1 3 h⟩

/-! ## Claim C7: aggregation when every store call fails -/

/-- Claim C7.  When the card resolved to a printing but every store
fetch failed, the aggregate deck outcome carries no numeric price, is
the explicit no-prices outcome, and its per-store map holds the
`Not available` error entry for every configured store key. -/
theorem C7_theorem : ∀ (printings : List Card) (ex : Bool) (fetch : String → Option Quote),
    printings.isEmpty = false →
    findCheapestPrinting printings ex ≠ none →
    (∀ k, fetch k = none) →
    outcomePrice (findCheapestPrintingForDeck printings ex fetch) = none ∧
    ∃ asp, findCheapestPrintingForDeck printings ex fetch = .noPrices asp ∧
      ∀ k ∈ getStoreKeys,
        asp.find? (fun x => x.1 == k) = some (k, StoreEntry.err "Not available") := by
  intro printings ex fetch hpe hres hfail
  have hcp : collectPrices (getStoreKeys.map (fun k => (k, fetch k))) = [] := by
    simp [collectPrices, getStoreKeys, hfail]
  cases hsel : findCheapestPrinting printings ex with
  | none => exact absurd hsel hres
  | some chosen =>
    have hrun : findCheapestPrintingForDeck printings ex fetch =
        .noPrices (mkAllStorePrices []) := by
      simp [findCheapestPrintingForDeck, hpe, hsel, hcp, selectCheapestStore]
    refine ⟨by rw [hrun]; rfl, mkAllStorePrices [], hrun, ?_⟩
    intro k hk
    simp only [getStoreKeys, List.mem_cons, List.not_mem_nil, or_false] at hk
    rcases hk with rfl | rfl | rfl <;> decide

/-- Claim C7 witness: one resolved printing, all three store calls
failing. -/
theorem C7_witness :
    ([cardCheapTwo] : List Card).isEmpty = false ∧
    findCheapestPrinting [cardCheapTwo] false ≠ none ∧
    outcomePrice (findCheapestPrintingForDeck [cardCheapTwo] false fetchFail) = none ∧
    ∃ asp, findCheapestPrintingForDeck [cardCheapTwo] false fetchFail = .noPrices asp ∧
      ∀ k ∈ getStoreKeys,
        asp.find? (fun x => x.1 == k) = some (k, StoreEntry.err "Not available") :=
  ⟨rfl, by decide,
    (C7_theorem [cardCheapTwo] false fetchFail rfl (by decide) (fun _ => rfl)).1,
    (C7_theorem [cardCheapTwo] false fetchFail rfl (by decide) (fun _ => rfl)).2⟩

/-! ## Slug machinery: character classes and basic list lemmas -/

/-- The code-point ranges of a slug character: lowercase letter, digit,
or hyphen. -/
theorem charOK_toNat {c : Char} (h : isLowerAlnum c = true ∨ c = '-') :
    (97 ≤ c.toNat ∧ c.toNat ≤ 122) ∨ (48 ≤ c.toNat ∧ c.toNat ≤ 57) ∨ c.toNat = 45 := by
  rcases h with h | rfl
  · simp only [isLowerAlnum, Bool.or_eq_true, Bool.and_eq_true, decide_eq_true_eq] at h
    rcases h with ⟨h1, h2⟩ | ⟨h1, h2⟩
    · exact Or.inl ⟨h1, h2⟩
    · exact Or.inr (Or.inl ⟨h1, h2⟩)
  · exact Or.inr (Or.inr rfl)

/-- Lowercasing fixes every slug character. -/
theorem jsLower_fix {c : Char} (h : isLowerAlnum c = true ∨ c = '-') : jsLower c = c := by
  have hn := charOK_toNat h
  unfold jsLower
  rw [if_neg]
  simp only [Bool.and_eq_true, decide_eq_true_eq, not_and, not_le]
  omega

/-- A slug character is not an apostrophe. -/
theorem charOK_ne_apos {c : Char} (h : isLowerAlnum c = true ∨ c = '-') :
    (c != apos) = true := by
  have hn := charOK_toNat h
  simp only [bne_iff_ne, ne_eq]
  intro heq
  have h39 : c.toNat = 39 := by rw [heq]; rfl
  omega

/-- The dashing step fixes every slug character. -/
theorem dashify_fix {c : Char} (h : isLowerAlnum c = true ∨ c = '-') :
    (if isLowerAlnum c then c else '-') = c := by
  rcases h with h | rfl
  · rw [if_pos h]
  · split_ifs <;> rfl

/-- A slug character is not whitespace. -/
theorem charOK_not_ws {c : Char} (h : isLowerAlnum c = true ∨ c = '-') :
    isWs c = false := by
  have hn := charOK_toNat h
  by_contra hw
  have hw2 : isWs c = true := by simpa using hw
  simp only [isWs, Bool.or_eq_true, beq_iff_eq] at hw2
  have : c.toNat = 32 ∨ c.toNat = 9 ∨ c.toNat = 10 ∨ c.toNat = 13 ∨
      c.toNat = 11 ∨ c.toNat = 12 := by
    rcases hw2 with ((((h2 | h2) | h2) | h2) | h2) | h2 <;> subst h2 <;> decide
  omega

/-- A slug character is not a slash. -/
theorem charOK_ne_slash {c : Char} (h : isLowerAlnum c = true ∨ c = '-') :
    c ≠ '/' := by
  have hn := charOK_toNat h
  intro heq
  have h47 : c.toNat = 47 := by rw [heq]; rfl
  omega

/-- Mapping a pointwise-identical function over a list is the identity. -/
theorem list_map_id_of {f : Char → Char} : ∀ (l : List Char),
    (∀ c ∈ l, f c = c) → l.map f = l := by
  intro l
  induction l with
  | nil => intro _; rfl
  | cons c rest ih =>
    intro h
    simp only [List.map_cons, h c (List.mem_cons_self c rest),
      ih (fun x hx => h x (List.mem_cons_of_mem c hx))]

/-- A list's optional head, when present, is a member. -/
theorem mem_of_head_some {l : List Char} {c : Char} (h : l.head? = some c) : c ∈ l := by
  cases l with
  | nil => exact Option.noConfusion h
  | cons d rest =>
    obtain rfl : d = c := Option.some.inj h
    exact List.mem_cons_self d rest

/-- Dropping the head does not change the optional last element. -/
theorem getLast_cc (c d : Char) (rest : List Char) :
    (c :: d :: rest).getLast? = (d :: rest).getLast? :=
  List.getLast?_cons_cons

/-- A list's optional last element, when present, is a member. -/
theorem mem_of_getLast_some : ∀ {l : List Char} {c : Char}, l.getLast? = some c → c ∈ l := by
  intro l
  induction l with
  | nil => intro c h; exact Option.noConfusion h
  | cons d rest ih =>
    intro c h
    cases rest with
    | nil =>
      obtain rfl : d = c := by simpa using h
      exact List.mem_cons_self d []
    | cons e t =>
      rw [getLast_cc] at h
      exact List.mem_cons_of_mem d (ih h)

/-- The last element of a concatenation with a non-empty right part. -/
theorem getLast_append_ne (A B : List Char) (hB : B ≠ []) :
    (A ++ B).getLast? = B.getLast? := by
  induction A with
  | nil => rfl
  | cons a A2 ih =>
    cases hA : A2 ++ B with
    | nil =>
      rcases List.append_eq_nil.mp hA with ⟨-, h2⟩
      exact absurd h2 hB
    | cons x xs =>
      have : ((a :: A2) ++ B).getLast? = (A2 ++ B).getLast? := by
        rw [List.cons_append, hA]
        exact getLast_cc a x xs
      rw [this, ih]

/-! ## Slug machinery: `noDD`, `dropWhile`, `dropTrailing`, `squashDashes` -/

/-- Unfolding of `noDD` on two heads. -/
theorem noDD_cons_cons (c d : Char) (rest : List Char) :
    noDD (c :: d :: rest) = (!(c == '-' && d == '-') && noDD (d :: rest)) := rfl

/-- `noDD` restricts to the tail. -/
theorem noDD_tail : ∀ (c : Char) (l : List Char), noDD (c :: l) = true → noDD l = true := by
  intro c l h
  cases l with
  | nil => rfl
  | cons d rest =>
    rw [noDD_cons_cons, Bool.and_eq_true] at h
    exact h.2

/-- Extending on the left preserves `noDD` when the junction is clean. -/
theorem noDD_cons_of_head : ∀ (c : Char) (l : List Char), noDD l = true →
    (∀ d, l.head? = some d → (c == '-' && d == '-') = false) →
    noDD (c :: l) = true := by
  intro c l hl hh
  cases l with
  | nil => rfl
  | cons d rest =>
    rw [noDD_cons_cons, hh d rfl]
    simpa using hl

/-- The head surviving `dropWhile` does not satisfy the predicate. -/
theorem dropWhile_head_not (p : Char → Bool) : ∀ (l : List Char) (c : Char),
    (l.dropWhile p).head? = some c → p c = false := by
  intro l
  induction l with
  | nil => intro c h; exact Option.noConfusion h
  | cons d rest ih =>
    intro c h
    rw [List.dropWhile_cons] at h
    by_cases hd : p d
    · rw [if_pos hd] at h
      exact ih c h
    · rw [if_neg hd] at h
      obtain rfl : d = c := Option.some.inj h
      simpa using hd

/-- `dropWhile` only keeps members. -/
theorem dropWhile_subset (p : Char → Bool) : ∀ (l : List Char) (c : Char),
    c ∈ l.dropWhile p → c ∈ l := by
  intro l
  induction l with
  | nil => intro c h; exact h
  | cons d rest ih =>
    intro c h
    rw [List.dropWhile_cons] at h
    by_cases hd : p d
    · rw [if_pos hd] at h
      exact List.mem_cons_of_mem d (ih c h)
    · rw [if_neg hd] at h
      exact h

/-- `dropWhile` preserves the no-double-hyphen property. -/
theorem dropWhile_noDD (p : Char → Bool) : ∀ (l : List Char),
    noDD l = true → noDD (l.dropWhile p) = true := by
  intro l
  induction l with
  | nil => intro h; exact h
  | cons d rest ih =>
    intro h
    rw [List.dropWhile_cons]
    by_cases hd : p d
    · rw [if_pos hd]
      exact ih (noDD_tail d rest h)
    · rw [if_neg hd]
      exact h

/-- `dropWhile` is the identity when the head does not satisfy `p`. -/
theorem dropWhile_id_of_head (p : Char → Bool) (l : List Char)
    (h : ∀ c, l.head? = some c → p c = false) : l.dropWhile p = l := by
  cases l with
  | nil => rfl
  | cons d rest =>
    rw [List.dropWhile_cons, if_neg (by simp [h d rfl])]

/-- Unfolding of `dropTrailing` when the tail drops to nothing. -/
theorem dropTrailing_cons_nil (p : Char → Bool) (d : Char) (rest : List Char)
    (h : dropTrailing p rest = []) :
    dropTrailing p (d :: rest) = if p d then [] else [d] := by
  simp only [dropTrailing, h]

/-- Unfolding of `dropTrailing` when the tail survives. -/
theorem dropTrailing_cons_ne (p : Char → Bool) (d r0 : Char) (rest rs : List Char)
    (h : dropTrailing p rest = r0 :: rs) :
    dropTrailing p (d :: rest) = d :: r0 :: rs := by
  simp only [dropTrailing, h]

/-- `dropTrailing` only keeps members. -/
theorem dropTrailing_subset (p : Char → Bool) : ∀ (l : List Char) (c : Char),
    c ∈ dropTrailing p l → c ∈ l := by
  intro l
  induction l with
  | nil => intro c h; exact h
  | cons d rest ih =>
    intro c h
    cases hdt : dropTrailing p rest with
    | nil =>
      rw [dropTrailing_cons_nil p d rest hdt] at h
      by_cases hd : p d
      · rw [if_pos hd] at h
        exact absurd h (List.not_mem_nil c)
      · rw [if_neg hd] at h
        obtain rfl : c = d := by simpa using h
        exact List.mem_cons_self c rest
    | cons r0 rs =>
      rw [dropTrailing_cons_ne p d r0 rest rs hdt] at h
      rcases List.mem_cons.mp h with rfl | h2
      · exact List.mem_cons_self c rest
      · rw [← hdt] at h2
        exact List.mem_cons_of_mem d (ih c h2)

/-- `dropTrailing` keeps the head of a surviving list. -/
theorem dropTrailing_head (p : Char → Bool) : ∀ (l : List Char),
    dropTrailing p l ≠ [] → (dropTrailing p l).head? = l.head? := by
  intro l
  cases l with
  | nil => intro h; exact absurd rfl h
  | cons d rest =>
    intro h
    cases hdt : dropTrailing p rest with
    | nil =>
      rw [dropTrailing_cons_nil p d rest hdt] at h ⊢
      by_cases hd : p d
      · rw [if_pos hd] at h
        exact absurd rfl h
      · rw [if_neg hd]
        rfl
    | cons r0 rs =>
      rw [dropTrailing_cons_ne p d r0 rest rs hdt]
      rfl

/-- The last element surviving `dropTrailing` does not satisfy `p`. -/
theorem dropTrailing_last (p : Char → Bool) : ∀ (l : List Char) (c : Char),
    (dropTrailing p l).getLast? = some c → p c = false := by
  intro l
  induction l with
  | nil => intro c h; exact Option.noConfusion h
  | cons d rest ih =>
    intro c h
    cases hdt : dropTrailing p rest with
    | nil =>
      rw [dropTrailing_cons_nil p d rest hdt] at h
      by_cases hd : p d
      · rw [if_pos hd] at h
        exact Option.noConfusion h
      · rw [if_neg hd] at h
        obtain rfl : d = c := by simpa using h
        simpa using hd
    | cons r0 rs =>
      rw [dropTrailing_cons_ne p d r0 rest rs hdt, getLast_cc, ← hdt] at h
      exact ih c h

/-- `dropTrailing` is the identity when the last element does not
satisfy `p`. -/
theorem dropTrailing_id (p : Char → Bool) : ∀ (l : List Char),
    (∀ c, l.getLast? = some c → p c = false) → dropTrailing p l = l := by
  intro l
  induction l with
  | nil => intro _; rfl
  | cons d rest ih =>
    intro h
    cases rest with
    | nil =>
      have hd : p d = false := h d (by simp)
      rw [dropTrailing_cons_nil p d [] rfl, if_neg (by simp [hd])]
    | cons e t =>
      have hrest : dropTrailing p (e :: t) = e :: t :=
        ih (fun c hc => h c (by rw [getLast_cc]; exact hc))
      rw [dropTrailing_cons_ne p d e (e :: t) t hrest]

/-- `dropTrailing` preserves the no-double-hyphen property. -/
theorem dropTrailing_noDD (p : Char → Bool) : ∀ (l : List Char),
    noDD l = true → noDD (dropTrailing p l) = true := by
  intro l
  induction l with
  | nil => intro h; exact h
  | cons d rest ih =>
    intro h
    cases hdt : dropTrailing p rest with
    | nil =>
      rw [dropTrailing_cons_nil p d rest hdt]
      split_ifs <;> rfl
    | cons r0 rs =>
      rw [dropTrailing_cons_ne p d r0 rest rs hdt]
      have hnd : noDD (r0 :: rs) = true := by
        rw [← hdt]
        exact ih (noDD_tail d rest h)
      have hne : dropTrailing p rest ≠ [] := by
        rw [hdt]
        simp
      have hhead := dropTrailing_head p rest hne
      rw [hdt] at hhead
      cases rest with
      | nil => simp [dropTrailing] at hdt
      | cons e t =>
        have he : r0 = e := by simpa using hhead
        subst he
        rw [noDD_cons_cons, Bool.and_eq_true] at h ⊢
        exact ⟨h.1, hnd⟩

/-- The head is unchanged by hyphen collapsing. -/
theorem squash_head : ∀ (l : List Char), (squashDashes l).head? = l.head? := by
  intro l
  induction l with
  | nil => rfl
  | cons c rest ih =>
    cases rest with
    | nil => rfl
    | cons d t =>
      simp only [squashDashes]
      by_cases hcd : (c == '-' && d == '-') = true
      · rw [if_pos hcd, ih]
        rw [Bool.and_eq_true] at hcd
        have hc2 : c = '-' := by simpa using hcd.1
        have hd2 : d = '-' := by simpa using hcd.2
        simp [hc2, hd2]
      · rw [if_neg hcd]
        rfl

/-- Hyphen collapsing only keeps members. -/
theorem squash_subset : ∀ (l : List Char) (c : Char), c ∈ squashDashes l → c ∈ l := by
  intro l
  induction l with
  | nil => intro c h; exact h
  | cons c rest ih =>
    intro x h
    cases rest with
    | nil => exact h
    | cons d t =>
      simp only [squashDashes] at h
      by_cases hcd : (c == '-' && d == '-') = true
      · rw [if_pos hcd] at h
        exact List.mem_cons_of_mem c (ih x h)
      · rw [if_neg hcd] at h
        rcases List.mem_cons.mp h with rfl | h2
        · exact List.mem_cons_self x (d :: t)
        · exact List.mem_cons_of_mem c (ih x h2)

/-- Hyphen collapsing produces no double hyphen. -/
theorem squash_noDD : ∀ (l : List Char), noDD (squashDashes l) = true := by
  intro l
  induction l with
  | nil => rfl
  | cons c rest ih =>
    cases rest with
    | nil => rfl
    | cons d t =>
      simp only [squashDashes]
      by_cases hcd : (c == '-' && d == '-') = true
      · rw [if_pos hcd]
        exact ih
      · rw [if_neg hcd]
        apply noDD_cons_of_head c _ ih
        intro e he
        rw [squash_head] at he
        obtain rfl : d = e := Option.some.inj he
        simpa using hcd

/-- Hyphen collapsing fixes a list with no double hyphen. -/
theorem squash_id : ∀ (l : List Char), noDD l = true → squashDashes l = l := by
  intro l
  induction l with
  | nil => intro _; rfl
  | cons c rest ih =>
    intro h
    cases rest with
    | nil => rfl
    | cons d t =>
      rw [noDD_cons_cons, Bool.and_eq_true] at h
      obtain ⟨h1, h2⟩ := h
      simp only [squashDashes]
      rw [if_neg (fun hcon => by rw [hcon] at h1; simp at h1), ih h2]

/-! ## Slug machinery: properties of `kebabOne` -/

/-- Every character of a single-face slug is a lowercase letter, a
digit, or a hyphen. -/
theorem kebabOne_chars : ∀ (l : List Char) (c : Char), c ∈ kebabOne l →
    isLowerAlnum c = true ∨ c = '-' := by
  intro l c h
  unfold kebabOne trimBoth at h
  have h3 := squash_subset _ c
    (dropWhile_subset isDash _ c (dropTrailing_subset isDash _ c h))
  unfold dashMap at h3
  rcases List.mem_map.mp h3 with ⟨x, -, hx⟩
  by_cases hok : isLowerAlnum x = true
  · rw [if_pos hok] at hx
    subst hx
    exact Or.inl hok
  · rw [if_neg hok] at hx
    exact Or.inr hx.symm

/-- A single-face slug has no double hyphen. -/
theorem kebabOne_noDD (l : List Char) : noDD (kebabOne l) = true :=
  dropTrailing_noDD isDash _ (dropWhile_noDD isDash _ (squash_noDD _))

/-- A single-face slug does not start with a hyphen. -/
theorem kebabOne_headNotDash (l : List Char) : headNotDash (kebabOne l) = true := by
  cases hh : (kebabOne l).head? with
  | none => simp [headNotDash, hh]
  | some c =>
    have hne : kebabOne l ≠ [] := fun hcon => by
      rw [hcon] at hh
      exact Option.noConfusion hh
    have hhead : (kebabOne l).head? =
        (List.dropWhile isDash (squashDashes (dashMap l))).head? :=
      dropTrailing_head isDash _ hne
    rw [hh] at hhead
    have hdash : isDash c = false := dropWhile_head_not isDash _ c hhead.symm
    simp only [headNotDash, hh, bne_iff_ne, ne_eq]
    intro hcon
    subst hcon
    simp [isDash] at hdash

/-- A single-face slug does not end with a hyphen. -/
theorem kebabOne_lastNotDash (l : List Char) : lastNotDash (kebabOne l) = true := by
  cases hh : (kebabOne l).getLast? with
  | none => simp [lastNotDash, hh]
  | some c =>
    have hdash : isDash c = false := dropTrailing_last isDash _ c hh
    simp only [lastNotDash, hh, bne_iff_ne, ne_eq]
    intro hcon
    subst hcon
    simp [isDash] at hdash

/-- A single-face slug is a well-formed slug. -/
theorem kebabOne_good (l : List Char) : goodSlug (kebabOne l) = true := by
  simp [goodSlug, kebabOne_noDD, kebabOne_headNotDash, kebabOne_lastNotDash]

/-- Restating `headNotDash` through the optional head. -/
theorem headNotDash_spec (l : List Char) (h : headNotDash l = true) :
    ∀ c, l.head? = some c → isDash c = false := by
  intro c hc
  simp only [headNotDash, hc, bne_iff_ne, ne_eq] at h
  simp only [isDash]
  simpa using h

/-- Restating `lastNotDash` through the optional last element. -/
theorem lastNotDash_spec (l : List Char) (h : lastNotDash l = true) :
    ∀ c, l.getLast? = some c → isDash c = false := by
  intro c hc
  simp only [lastNotDash, hc, bne_iff_ne, ne_eq] at h
  simp only [isDash]
  simpa using h

/-- The lowering and dashing steps fix a list of slug characters. -/
theorem dashMap_fix (l : List Char)
    (hok : ∀ c ∈ l, isLowerAlnum c = true ∨ c = '-') : dashMap l = l := by
  unfold dashMap
  rw [list_map_id_of l (fun c hc => jsLower_fix (hok c hc)),
    List.filter_eq_self.mpr (fun c hc => charOK_ne_apos (hok c hc))]
  exact list_map_id_of l (fun c hc => dashify_fix (hok c hc))

/-- `kebabOne` fixes every well-formed slug over slug characters. -/
theorem kebabOne_fix (l : List Char)
    (hok : ∀ c ∈ l, isLowerAlnum c = true ∨ c = '-')
    (hdd : noDD l = true) (hh : headNotDash l = true) (hl : lastNotDash l = true) :
    kebabOne l = l := by
  unfold kebabOne trimBoth
  rw [dashMap_fix l hok, squash_id l hdd,
    dropWhile_id_of_head isDash l (fun c hc => headNotDash_spec l hh c hc)]
  exact dropTrailing_id isDash l (fun c hc => lastNotDash_spec l hl c hc)

/-- Trimming whitespace fixes a list of slug characters. -/
theorem trimWs_fix (l : List Char)
    (hok : ∀ c ∈ l, isLowerAlnum c = true ∨ c = '-') : trimWs l = l := by
  unfold trimWs trimBoth
  rw [dropWhile_id_of_head isWs l
    (fun c hc => charOK_not_ws (hok c (mem_of_head_some hc)))]
  exact dropTrailing_id isWs l
    (fun c hc => charOK_not_ws (hok c (mem_of_getLast_some hc)))

/-! ## Slug machinery: split, join, and the separator test -/

/-- A list without slashes has no double-slash separator. -/
theorem hasDoubleSlash_eq_false : ∀ (l : List Char), (∀ c ∈ l, c ≠ '/') →
    hasDoubleSlash l = false := by
  intro l
  induction l with
  | nil => intro _; rfl
  | cons c rest ih =>
    intro h
    cases rest with
    | nil => rfl
    | cons d t =>
      show ((c == '/' && d == '/') || hasDoubleSlash (d :: t)) = false
      rw [ih (fun x hx => h x (List.mem_cons_of_mem c hx))]
      have hc : c ≠ '/' := h c (List.mem_cons_self c _)
      simp [hc]

/-- Splitting a list without slashes yields the list itself. -/
theorem splitOnSlashes_no_slash : ∀ (l : List Char), (∀ c ∈ l, c ≠ '/') →
    splitOnSlashes l = [l] := by
  intro l
  induction l with
  | nil => intro _; rfl
  | cons c rest ih =>
    intro h
    cases rest with
    | nil => rfl
    | cons d t =>
      have hc : c ≠ '/' := h c (List.mem_cons_self c _)
      have hr : splitOnSlashes (d :: t) = [d :: t] :=
        ih (fun x hx => h x (List.mem_cons_of_mem c hx))
      simp only [splitOnSlashes]
      rw [if_neg (by simp [hc]), hr]

/-- The split result is never empty. -/
theorem splitOnSlashes_ne_nil : ∀ (l : List Char), splitOnSlashes l ≠ [] := by
  intro l
  induction l with
  | nil => simp [splitOnSlashes]
  | cons c rest ih =>
    cases rest with
    | nil => simp [splitOnSlashes]
    | cons d t =>
      simp only [splitOnSlashes]
      by_cases hcd : (c == '/' && d == '/') = true
      · rw [if_pos hcd]
        simp
      · rw [if_neg hcd]
        cases hs : splitOnSlashes (d :: t) with
        | nil => exact absurd hs ih
        | cons p ps =>
          simp

/-- A join starting from a non-empty part is non-empty. -/
theorem joinDash_ne_nil : ∀ (q : List Char) (qs : List (List Char)),
    q ≠ [] → joinDash (q :: qs) ≠ [] := by
  intro q qs hq
  cases qs with
  | nil => exact hq
  | cons q2 qs2 =>
    show q ++ '-' :: joinDash (q2 :: qs2) ≠ []
    simp

/-- The head of a join is the head of its first part. -/
theorem joinDash_head : ∀ (q : List Char) (qs : List (List Char)),
    q ≠ [] → (joinDash (q :: qs)).head? = q.head? := by
  intro q qs hq
  cases qs with
  | nil => rfl
  | cons q2 qs2 =>
    cases q with
    | nil => exact absurd rfl hq
    | cons a as => rfl

/-- Characters of a join are characters of the parts, or hyphens. -/
theorem joinDash_chars : ∀ (parts : List (List Char)),
    (∀ q ∈ parts, ∀ c ∈ q, isLowerAlnum c = true ∨ c = '-') →
    ∀ c ∈ joinDash parts, isLowerAlnum c = true ∨ c = '-' := by
  intro parts
  induction parts with
  | nil => intro _ c hc; exact absurd hc (List.not_mem_nil c)
  | cons q qs ih =>
    intro h c hc
    cases qs with
    | nil => exact h q (List.mem_cons_self q _) c hc
    | cons q2 qs2 =>
      simp only [joinDash] at hc
      rcases List.mem_append.mp hc with hc1 | hc2
      · exact h q (List.mem_cons_self q _) c hc1
      · rcases List.mem_cons.mp hc2 with rfl | hc3
        · exact Or.inr rfl
        · exact ih (fun x hx => h x (List.mem_cons_of_mem q hx)) c hc3

/-- Prefixing a hyphen keeps `noDD` when the list does not start with
one. -/
theorem noDD_dash_cons (l : List Char) (hh : headNotDash l = true)
    (hdd : noDD l = true) : noDD ('-' :: l) = true := by
  cases l with
  | nil => rfl
  | cons e t =>
    rw [noDD_cons_cons, Bool.and_eq_true]
    refine ⟨?_, hdd⟩
    have he : (e != '-') = true := by simpa [headNotDash] using hh
    simp only [bne_iff_ne, ne_eq] at he
    simp [he]

/-- Joining with a single hyphen between two clean pieces keeps
`noDD`. -/
theorem noDD_append_dash : ∀ (A B : List Char), A ≠ [] →
    noDD A = true → lastNotDash A = true → headNotDash B = true → noDD B = true →
    noDD (A ++ '-' :: B) = true := by
  intro A
  induction A with
  | nil => intro B h; exact absurd rfl h
  | cons a A2 ih =>
    intro B _ hA hlast hhB hB
    cases A2 with
    | nil =>
      have ha : (a != '-') = true := by simpa [lastNotDash] using hlast
      simp only [List.cons_append, List.nil_append]
      rw [noDD_cons_cons, Bool.and_eq_true]
      constructor
      · simp only [bne_iff_ne, ne_eq] at ha
        simp [ha]
      · exact noDD_dash_cons B hhB hB
    | cons b A3 =>
      have hlast2 : lastNotDash (b :: A3) = true := by
        simpa [lastNotDash, getLast_cc] using hlast
      have hstep : noDD ((b :: A3) ++ '-' :: B) = true :=
        ih B (by simp) (noDD_tail a _ hA) hlast2 hhB hB
      simp only [List.cons_append]
      apply noDD_cons_of_head a _ (by simpa using hstep)
      intro d hd
      have hb : b = d := by simpa using hd
      subst hb
      rw [noDD_cons_cons, Bool.and_eq_true] at hA
      obtain ⟨hA1, -⟩ := hA
      cases hab : (a == '-' && b == '-') with
      | false => rfl
      | true => rw [hab] at hA1; simp at hA1

/-- Decomposition of `goodSlug` into its three components. -/
theorem goodSlug_iff (l : List Char) : goodSlug l = true ↔
    (noDD l = true ∧ headNotDash l = true ∧ lastNotDash l = true) := by
  simp [goodSlug, Bool.and_eq_true, and_assoc]

/-- Joining non-empty well-formed slugs with hyphens yields a
well-formed slug. -/
theorem joinDash_good : ∀ (parts : List (List Char)),
    (∀ q ∈ parts, q ≠ [] ∧ goodSlug q = true) → parts ≠ [] →
    goodSlug (joinDash parts) = true := by
  intro parts
  induction parts with
  | nil => intro _ h; exact absurd rfl h
  | cons q qs ih =>
    intro h _
    cases qs with
    | nil => exact (h q (List.mem_cons_self q _)).2
    | cons q2 qs2 =>
      obtain ⟨hqne, hqgood⟩ := h q (List.mem_cons_self q _)
      have hrest := ih (fun x hx => h x (List.mem_cons_of_mem q hx)) (by simp)
      rw [goodSlug_iff] at hqgood hrest ⊢
      obtain ⟨hq1, hq2, hq3⟩ := hqgood
      obtain ⟨hr1, hr2, hr3⟩ := hrest
      have hJne : joinDash (q2 :: qs2) ≠ [] :=
        joinDash_ne_nil q2 qs2 (h q2 (by simp)).1
      refine ⟨?_, ?_, ?_⟩
      · show noDD (q ++ '-' :: joinDash (q2 :: qs2)) = true
        exact noDD_append_dash q _ hqne hq1 hq3 hr2 hr1
      · have hh := joinDash_head q (q2 :: qs2) hqne
        have hcast : headNotDash (joinDash (q :: q2 :: qs2)) = headNotDash q := by
          simp only [headNotDash, hh]
        rw [hcast]
        exact hq2
      · have hlast : (joinDash (q :: q2 :: qs2)).getLast? =
            (joinDash (q2 :: qs2)).getLast? := by
          show (q ++ '-' :: joinDash (q2 :: qs2)).getLast? = _
          rw [getLast_append_ne q _ (by simp)]
          cases hJ : joinDash (q2 :: qs2) with
          | nil => exact absurd hJ hJne
          | cons j js => exact getLast_cc '-' j js
        have hcast : lastNotDash (joinDash (q :: q2 :: qs2)) =
            lastNotDash (joinDash (q2 :: qs2)) := by
          simp only [lastNotDash, hlast]
        rw [hcast]
        exact hr3

/-! ## Claim C9: slugs have no stray hyphens -/

/-- Claim C9 counterexample.  The claim says the slug never has a
leading or trailing hyphen or two consecutive hyphens, for every input
including double-slash names.  The input consisting of the bare
separator slugs to a single hyphen, which is both a leading and a
trailing hyphen; a face with no alphanumeric characters yields an empty
face slug and the join then produces a stray hyphen. -/
theorem C9_counterexample :
    toKebabCase ("//".data) = ['-'] ∧ goodSlug (toKebabCase ("//".data)) = false := by
  constructor <;> decide

/-- Claim C9, amended.  For every input without the double-slash
separator the slug has no leading hyphen, no trailing hyphen and no two
consecutive hyphens; for inputs with the separator the same holds
provided every face yields a non-empty slug. -/
theorem C9_theorem : ∀ (s : List Char),
    (hasDoubleSlash s = false → goodSlug (toKebabCase s) = true) ∧
    (hasDoubleSlash s = true →
      (∀ part ∈ splitOnSlashes s, kebabOne (trimWs part) ≠ []) →
      goodSlug (toKebabCase s) = true) := by
  intro s
  constructor
  · intro h
    rw [toKebabCase, if_neg (by simp [h])]
    exact kebabOne_good s
  · intro h hfaces
    rw [toKebabCase, if_pos (by simp [h])]
    apply joinDash_good
    · intro q hq
      rcases List.mem_map.mp hq with ⟨part2, hpart2, rfl⟩
      rcases List.mem_map.mp hpart2 with ⟨part, hpart, rfl⟩
      exact ⟨hfaces part hpart, kebabOne_good _⟩
    · intro hcon
      rw [List.map_eq_nil_iff, List.map_eq_nil_iff] at hcon
      exact splitOnSlashes_ne_nil s hcon

/-- Claim C9 witness on a concrete two-faced name. -/
theorem C9_witness :
    hasDoubleSlash ("a // b".data) = true ∧
    (∀ part ∈ splitOnSlashes ("a // b".data), kebabOne (trimWs part) ≠ []) ∧
    goodSlug (toKebabCase ("a // b".data)) = true :=
  ⟨by decide, by decide, (C9_theorem ("a // b".data)).2 (by decide) (by decide)⟩

/-! ## Claim C10: idempotence of slug derivation -/

/-- The both-faces variant fixes every well-formed slug made of slug
characters. -/
theorem toKebab_fix_canon (m : List Char)
    (hok : ∀ c ∈ m, isLowerAlnum c = true ∨ c = '-')
    (hdd : noDD m = true) (hh : headNotDash m = true) (hl : lastNotDash m = true) :
    toKebabCase m = m := by
  have hds : hasDoubleSlash m = false :=
    hasDoubleSlash_eq_false m (fun c hc => charOK_ne_slash (hok c hc))
  rw [toKebabCase, if_neg (by simp [hds])]
  exact kebabOne_fix m hok hdd hh hl

/-- The first-face variant fixes every well-formed slug made of slug
characters. -/
theorem toKebabFirst_fix_canon (m : List Char)
    (hok : ∀ c ∈ m, isLowerAlnum c = true ∨ c = '-')
    (hdd : noDD m = true) (hh : headNotDash m = true) (hl : lastNotDash m = true) :
    toKebabCaseFirst m = m := by
  have hns : ∀ c ∈ m, c ≠ '/' := fun c hc => charOK_ne_slash (hok c hc)
  rw [toKebabCaseFirst]
  have hf : firstFace m = m := by
    simp only [firstFace, splitOnSlashes_no_slash m hns]
  rw [hf, trimWs_fix m hok]
  exact kebabOne_fix m hok hdd hh hl

/-- Claim C10 counterexample.  The claim says both slug variants are
idempotent on every input.  The both-faces variant is not: the bare
separator slugs to a single hyphen, which re-slugs to the empty
string. -/
theorem C10_counterexample :
    toKebabCase (toKebabCase ("//".data)) ≠ toKebabCase ("//".data) := by
  decide

/-- Claim C10, amended.  The first-face variant is idempotent on every
input.  The both-faces variant is idempotent on every input without the
double-slash separator, and on separator inputs provided every face
yields a non-empty slug. -/
theorem C10_theorem : ∀ (s : List Char),
    toKebabCaseFirst (toKebabCaseFirst s) = toKebabCaseFirst s ∧
    (hasDoubleSlash s = false → toKebabCase (toKebabCase s) = toKebabCase s) ∧
    (hasDoubleSlash s = true →
      (∀ part ∈ splitOnSlashes s, kebabOne (trimWs part) ≠ []) →
      toKebabCase (toKebabCase s) = toKebabCase s) := by
  intro s
  refine ⟨?_, ?_, ?_⟩
  · exact toKebabFirst_fix_canon (kebabOne (trimWs (firstFace s)))
      (kebabOne_chars _) (kebabOne_noDD _) (kebabOne_headNotDash _)
      (kebabOne_lastNotDash _)
  · intro h
    have h1 : toKebabCase s = kebabOne s := by
      rw [toKebabCase, if_neg (by simp [h])]
    rw [h1]
    exact toKebab_fix_canon (kebabOne s) (kebabOne_chars s) (kebabOne_noDD s)
      (kebabOne_headNotDash s) (kebabOne_lastNotDash s)
  · intro h hfaces
    have h1 : toKebabCase s = joinDash (((splitOnSlashes s).map trimWs).map kebabOne) := by
      rw [toKebabCase, if_pos (by simp [h])]
    have hparts : ∀ q ∈ ((splitOnSlashes s).map trimWs).map kebabOne,
        q ≠ [] ∧ goodSlug q = true := by
      intro q hq
      rcases List.mem_map.mp hq with ⟨part2, hpart2, rfl⟩
      rcases List.mem_map.mp hpart2 with ⟨part, hpart, rfl⟩
      exact ⟨hfaces part hpart, kebabOne_good _⟩
    have hne : ((splitOnSlashes s).map trimWs).map kebabOne ≠ [] := by
      intro hcon
      rw [List.map_eq_nil_iff, List.map_eq_nil_iff] at hcon
      exact splitOnSlashes_ne_nil s hcon
    have hgood := joinDash_good _ hparts hne
    rw [goodSlug_iff] at hgood
    have hchars := joinDash_chars (((splitOnSlashes s).map trimWs).map kebabOne)
      (fun q hq c hc => by
        rcases List.mem_map.mp hq with ⟨part2, -, rfl⟩
        exact kebabOne_chars _ c hc)
    rw [h1]
    exact toKebab_fix_canon _ hchars hgood.1 hgood.2.1 hgood.2.2

/-- Claim C10 witness: both variants applied twice on a concrete
two-faced name. -/
theorem C10_witness :
    hasDoubleSlash ("Fire // Ice".data) = true ∧
    (∀ part ∈ splitOnSlashes ("Fire // Ice".data), kebabOne (trimWs part) ≠ []) ∧
    toKebabCase (toKebabCase ("Fire // Ice".data)) = toKebabCase ("Fire // Ice".data) ∧
    toKebabCaseFirst (toKebabCaseFirst ("Fire // Ice".data)) =
      toKebabCaseFirst ("Fire // Ice".data) :=
  ⟨by decide, by decide, (C10_theorem ("Fire // Ice".data)).2.2 (by decide) (by decide),
    (C10_theorem ("Fire // Ice".data)).1⟩

end MtgSearch
